import Mathlib

/-!
Verification of the reactive core of `js-dive/vue-composition-api`.

Each definition below is a shallow embedding of a function of the
repository (`src/apis/watch.ts`, `src/apis/effectScope`-section of the same
file, `src/apis/computed`, `src/reactivity/reactive`).  Jobs, cleanup
callbacks and similar opaque closures are represented by `Nat` labels;
executing one appends its label to a trace.
-/

namespace VCA

/-! ## Flush scheduler (`src/apis/watch.ts`, `flushQueue` / `queueFlushJob`)

A host instance (`vm`) carries two flush queues
(`vm[WatcherPreFlushQueueKey]`, `vm[WatcherPostFlushQueueKey]`) and can
register deferred callbacks via `vm.$nextTick`.  We model a job as an
opaque `Nat` label: the queue entries are closures whose only observable
effect is that they run, so running a queue yields the trace of its labels.
`scheduledFallbacks` counts the callbacks currently registered with the
`$nextTick` primitive for the ongoing tick. -/

structure VMState where
  preQueue : List Nat
  postQueue : List Nat
  scheduledFallbacks : Nat
  deriving Repr, DecidableEq

/-- `flushQueue(vm, key)`: run every entry of the queue in index order
(FIFO), then truncate it (`queue.length = 0`).  Returns the execution
trace together with the drained queue. -/
def flushQueue (queue : List Nat) : List Nat × List Nat :=
  (queue, [])

/-- The body of the `fallbackFlush` closure of `queueFlushJob`
(the function handed to `vm.$nextTick`): if the pre-queue is non-empty,
flush it; then, if the post-queue is non-empty, flush it. -/
def fallbackFlushBody (vm : VMState) : List Nat × VMState :=
  let (t1, vm1) :=
    if vm.preQueue.length ≠ 0 then
      let (t, q) := flushQueue vm.preQueue
      (t, { vm with preQueue := q })
    else ([], vm)
  let (t2, vm2) :=
    if vm1.postQueue.length ≠ 0 then
      let (t, q) := flushQueue vm1.postQueue
      (t, { vm1 with postQueue := q })
    else ([], vm1)
  (t1 ++ t2, vm2)

/-- The `fallbackFlush()` call itself: it registers the fallback body with
the deferred-callback primitive (`vm.$nextTick(...)`), unconditionally. -/
def fallbackFlush (vm : VMState) : VMState :=
  { vm with scheduledFallbacks := vm.scheduledFallbacks + 1 }

/-- The two queueing modes accepted by `queueFlushJob`
(`Exclude<FlushMode, 'sync'>`). -/
inductive QueueMode where
  | pre
  | post
  deriving Repr, DecidableEq

/-- `queueFlushJob(vm, fn, mode)`: call `fallbackFlush()` and push the job
onto the queue selected by `mode`. -/
def queueFlushJob (vm : VMState) (fn : Nat) (mode : QueueMode) : VMState :=
  match mode with
  | .pre =>
      let vm1 := fallbackFlush vm
      { vm1 with preQueue := vm1.preQueue ++ [fn] }
  | .post =>
      let vm1 := fallbackFlush vm
      { vm1 with postQueue := vm1.postQueue ++ [fn] }

/-! ## Multi-source callback filter (`src/apis/watch.ts`, `applyCb`)

`applyCb(n, o)` skips the user callback when the watch is a non-deep
multi-source watch and `n.every((v, i) => isSame(v, o[i]))` holds; otherwise
it runs the cleanup and invokes `cb(n, o, registerCleanup)`.  The helper
`isSame` lives in `src/utils` (outside the embedded sources), so it is a
parameter `same` here.  `allSlotsSame` is the `n.every` check; a slot of `n`
beyond the length of `o` compares against the out-of-range access
`o[i] = undefined` and yields `false`. -/

def allSlotsSame {α : Type} (same : α → α → Bool) : List α → List α → Bool
  | [], _ => true
  | _ :: _, [] => false
  | a :: as, b :: bs => same a b && allSlotsSame same as bs

/-- `applyCb(n, o)`: `none` means the user callback was skipped; `some (n, o)`
means the callback was invoked with exactly those current/previous arrays. -/
def applyCb {α : Type} (same : α → α → Bool) (deep isMultiSource : Bool)
    (n o : List α) : Option (List α × List α) :=
  if !deep && isMultiSource && allSlotsSame same n o then none
  else some (n, o)

/-! ## Immediate watch callback (`src/apis/watch.ts`, `shiftCallback`)

With `immediate: true`, `createWatcher` wraps the scheduled callback: a
mutable `shiftCallback` starts as a function that (1) replaces itself with
the original (scheduler-wrapped) callback and (2) runs `applyCb` directly —
synchronously, bypassing the flush queues — with `o` replaced by `[]` when
`n` is an array (`o` is `undefined` on that first call, delivered by the
host's `$watch` at registration).  Every later call lands in the original
scheduled callback. -/

inductive WVal where
  | undef
  | prim (k : Nat)
  | arr (elems : List Nat)
  deriving Repr, DecidableEq

def WVal.isArr : WVal → Bool
  | .arr _ => true
  | _ => false

/-- What one delivery of the watcher callback did: `immediateRun n o` is a
direct synchronous `applyCb n o` (queue bypassed); `originalRun n o` is a
call of the original scheduler-wrapped callback (normal scheduling). -/
inductive CbAction where
  | immediateRun (n o : WVal)
  | originalRun (n o : WVal)
  deriving Repr, DecidableEq

/-- One delivery through the `shiftCallback` wrapper.  The `Bool` state
records whether the first (shifting) call has already happened. -/
def shiftCallbackStep (shifted : Bool) (n o : WVal) : Bool × CbAction :=
  if shifted then (true, .originalRun n o)
  else (true, .immediateRun n (if n.isArr then .arr [] else o))

/-- Delivers a sequence of `(newValue, oldValue)` pairs through the
wrapper, threading the shift state, and collects what each delivery did. -/
def deliverAll (shifted : Bool) : List (WVal × WVal) → List CbAction
  | [] => []
  | nv :: rest =>
    let r := shiftCallbackStep shifted nv.1 nv.2
    r.2 :: deliverAll r.1 rest

/-- Deliveries produced by a whole run of an `immediate: true` watch: the
host invokes the callback once at registration with `(initialValue,
undefined)`, then once per subsequent update. -/
def runImmediateWatch (v0 : WVal) (updates : List (WVal × WVal)) :
    List CbAction :=
  deliverAll false ((v0, WVal.undef) :: updates)

/-! ## Effect scope (`src/apis/effectScope`, `EffectScopeImpl`)

A scope is `{ active, effects, cleanups }`; child scopes are recorded in
`effects` by `recordEffectScope`, cleanup closures (opaque `Nat` labels)
in `cleanups` by `onScopeDispose`.  `stop()` is guarded by `active`:
it destroys the backing vm, stops every child, runs every cleanup in
registration order, then clears `active`.  `run(fn)` executes `fn` only
while `active`, otherwise warns and returns `undefined`. -/

inductive ScopeTree where
  | node (active : Bool) (children : List ScopeTree) (cleanups : List Nat)
  deriving Repr

def ScopeTree.isActive : ScopeTree → Bool
  | .node a _ _ => a

mutual
/-- `EffectScopeImpl.stop`: when active, stop each child
(`this.effects.forEach((e) => e.stop())`), then run each cleanup
(`this.cleanups.forEach((cleanup) => cleanup())`), then set
`active = false`.  Returns the stopped tree and the trace of cleanup
labels that ran, in execution order. -/
def stopScope : ScopeTree → ScopeTree × List Nat
  | .node active children cleanups =>
    if active then
      let r := stopChildren children
      (.node false r.1 cleanups, r.2 ++ cleanups)
    else (.node active children cleanups, [])

/-- Stops a list of child scopes left to right, concatenating their
cleanup traces. -/
def stopChildren : List ScopeTree → List ScopeTree × List Nat
  | [] => ([], [])
  | c :: rest =>
    let rc := stopScope c
    let rr := stopChildren rest
    (rc.1 :: rr.1, rc.2 ++ rr.2)
end

/-- `EffectScopeImpl.run(fn)`: if active, invoke `fn` (a state transformer,
so that an invocation is observable) and return its result; on a stopped
scope, warn and return `undefined` (`none`) without touching the state. -/
def runScope {σ α : Type} (s : ScopeTree) (fn : σ → σ × α) (st : σ) :
    σ × Option α :=
  if s.isActive then
    let r := fn st
    (r.1, some r.2)
  else (st, none)

/-! ## Computed cell setter (`src/apis/computed`, `computedSetter`)

Both branches of `computed` (the scoped-vm branch and the fallback-host
branch) install the same setter shape:
`if (__DEV__ && !setter) { warn(...); return }` followed by a write that
reaches the user setter when one exists and is otherwise dropped (in the
vm branch `if (setter) setter(v)`; in the fallback branch the assignment
`computedHost.$$state = v` goes to a host computed whose `set` is the
absent user setter, hence also a drop).  The cell state is `σ`; `warnings`
counts emitted warnings; a supplied setter is a state transformer. -/

structure ComputedCellState (σ : Type) where
  state : σ
  warnings : Nat
  deriving Repr, DecidableEq

def computedSetter {α σ : Type} (dev : Bool) (setter : Option (α → σ → σ))
    (v : α) (cell : ComputedCellState σ) : ComputedCellState σ :=
  match setter with
  | none =>
      if dev then { cell with warnings := cell.warnings + 1 }
      else cell
  | some f => { cell with state := f v cell.state }

/-! ## Effect watch re-entrancy guard (`src/apis/watch.ts`, `createWatcher`)

For an effect watch (`cb === null`) the tracked getter is
`() => { if (running) return; try { running = true; source(registerCleanup) }
finally { running = false } }`.  The user body is a state transformer that
may also throw (`σ → σ × Option ε`: the resulting state plus a raised
exception, if any); `running` is the closure-local guard, inaccessible to
the body.  The result is the new guard value, the new state, and the
exception that propagated out. -/

def effectGetter {σ ε : Type} (body : σ → σ × Option ε) (running : Bool)
    (st : σ) : Bool × σ × Option ε :=
  if running then (running, st, none)
  else
    let r := body st
    (false, r.1, r.2)

/-! ## Deep traversal (`src/apis/watch.ts`, `traverse`)

Values are either primitives (`!isObject`) or references into a finite
heap of `n` nodes.  A node is raw-marked (`rawSet.has`), or a Ref
(unwrapped via `.value`), an array, a Set, a Map, a plain object (each
walking its children), or some other object (no recursion).  The JS
`traverse(value, seen)` threads one mutable identity `Set` through all
recursive calls; here `seen : Finset (Fin n)` is threaded explicitly and
the recursion carries explicit fuel — `none` means the fuel ran out, so
termination of the source recursion is exactly the theorem that enough
fuel always yields `some`. -/

inductive JVal (n : Nat) where
  | prim
  | obj (a : Fin n)
  deriving Repr, DecidableEq

inductive NodeKind where
  | refNode
  | arrNode
  | setNode
  | mapNode
  | plainNode
  | otherNode
  deriving Repr, DecidableEq

structure Heap (n : Nat) where
  kind : Fin n → NodeKind
  raw : Fin n → Bool
  refValue : Fin n → JVal n
  children : Fin n → List (JVal n)

mutual
/-- `traverse(value, seen)`: return the value unchanged when it is not an
object, already seen, or raw-marked; otherwise mark it seen and recurse
into its `.value` (Ref), its elements (array / Set / Map), or its
enumerable properties (plain object), finally returning the value itself
together with the grown seen set. -/
def traverse {n : Nat} (h : Heap n) :
    Nat → JVal n → Finset (Fin n) → Option (JVal n × Finset (Fin n))
  | _, .prim, seen => some (.prim, seen)
  | 0, .obj _, _ => none
  | fuel + 1, .obj a, seen =>
    if a ∈ seen ∨ h.raw a then some (.obj a, seen)
    else
      let seen1 := insert a seen
      match h.kind a with
      | .refNode =>
          (traverse h fuel (h.refValue a) seen1).map (fun r => (.obj a, r.2))
      | .arrNode =>
          (traverseList h fuel (h.children a) seen1).map (fun s => (.obj a, s))
      | .setNode =>
          (traverseList h fuel (h.children a) seen1).map (fun s => (.obj a, s))
      | .mapNode =>
          (traverseList h fuel (h.children a) seen1).map (fun s => (.obj a, s))
      | .plainNode =>
          (traverseList h fuel (h.children a) seen1).map (fun s => (.obj a, s))
      | .otherNode => some (.obj a, seen1)
termination_by fuel _ _ => (fuel, 0)

/-- Traverses a node's children left to right, threading the seen set. -/
def traverseList {n : Nat} (h : Heap n) :
    Nat → List (JVal n) → Finset (Fin n) → Option (Finset (Fin n))
  | _, [], seen => some seen
  | fuel, v :: rest, seen =>
    match traverse h fuel v seen with
    | none => none
    | some r => traverseList h fuel rest r.2
termination_by fuel vs _ => (fuel, vs.length + 1)
end

/-- The deep getter installed by `createWatcher` when `deep` is set:
`getter = () => traverse(baseGetter())`, with the fuel that (as proved
below) always suffices. -/
def deepGetter {n : Nat} (h : Heap n) (baseGetter : Unit → JVal n) :
    Option (JVal n) :=
  (traverse h (n + 1) (baseGetter ()) ∅).map Prod.fst

/-! ## Reactivity flags (`src/reactivity/reactive`, `isRaw` / `isReactive` /
`markRaw`)

Both predicates inspect one marker: the own property `__ob__`.  `isRaw`
demands a truthy object, an own `__ob__` of type object, and a truthy
`__ob__.__raw__`; `isReactive` demands the same marker with `__raw__`
falsy.  `markRaw` installs, on any extensible plain object or array, an
observer object with `__raw__ = true` as `__ob__` (and records the object
in `rawSet`); on anything else it is the identity. -/

structure JsObjShape where
  plainOrArray : Bool
  extensible : Bool
  hasOb : Bool
  obIsObject : Bool
  obRaw : Bool
  deriving Repr, DecidableEq

inductive JsRef where
  | nullish
  | obj (o : JsObjShape)
  deriving Repr, DecidableEq

def isRaw : JsRef → Bool
  | .nullish => false
  | .obj o => o.hasOb && o.obIsObject && o.obRaw

def isReactive : JsRef → Bool
  | .nullish => false
  | .obj o => o.hasOb && o.obIsObject && !o.obRaw

def markRaw (o : JsObjShape) : JsRef :=
  if !(o.plainOrArray && o.extensible) then .obj o
  else .obj { o with hasOb := true, obIsObject := true, obRaw := true }

/-- One-node heap realizing `const o = {}; o.self = o`: a plain object whose
single enumerable property refers back to the object itself. -/
def cyclicHeap : Heap 1 where
  kind := fun _ => .plainNode
  raw := fun _ => false
  refValue := fun _ => .prim
  children := fun _ => [.obj 0]

/-! ## Helper lemmas -/

/-- Characterization of the fallback flush body: the trace is the pre-queue
followed by the post-queue, and both queues end up empty. -/
theorem fallbackFlushBody_spec (vm : VMState) :
    fallbackFlushBody vm =
      (vm.preQueue ++ vm.postQueue,
        { vm with preQueue := [], postQueue := [] }) := by
  obtain ⟨pre, post, k⟩ := vm
  cases pre <;> cases post <;> simp [fallbackFlushBody, flushQueue]

/-- A scope that has gone through `stop()` is inactive. -/
theorem stopScope_fst_inactive (s : ScopeTree) :
    (stopScope s).1.isActive = false := by
  obtain ⟨a, c, cl⟩ := s
  cases a <;> simp [stopScope, ScopeTree.isActive]

/-- On an inactive scope `stop()` does nothing: same tree, empty trace. -/
theorem stopScope_inactive (s : ScopeTree) (hs : s.isActive = false) :
    stopScope s = (s, []) := by
  obtain ⟨a, c, cl⟩ := s
  simp [ScopeTree.isActive] at hs
  subst hs
  simp [stopScope]

/-- Tail of an immediate watch: once the shift has happened, every
remaining update is delivered to the original scheduled callback. -/
theorem deliverAll_shifted (updates : List (WVal × WVal)) :
    deliverAll true updates
      = updates.map (fun p => CbAction.originalRun p.1 p.2) := by
  induction updates with
  | nil => rfl
  | cons u rest ih => simp [deliverAll, shiftCallbackStep, ih]

/-- The value returned by `traverse` is always the value it was given. -/
theorem traverse_fst {n : Nat} (h : Heap n) (fuel : Nat) (v : JVal n)
    (seen : Finset (Fin n)) (r : JVal n × Finset (Fin n))
    (hr : traverse h fuel v seen = some r) : r.1 = v := by
  cases v with
  | prim =>
    cases fuel <;> simp [traverse] at hr <;> subst hr <;> rfl
  | obj a =>
    cases fuel with
    | zero => simp [traverse] at hr
    | succ f =>
      rw [traverse] at hr
      split at hr
      · simp at hr
        subst hr
        rfl
      · cases hk : h.kind a <;> simp [hk] at hr
        case refNode =>
          obtain ⟨x, b, -, hxr⟩ := hr
          subst hxr
          rfl
        case otherNode =>
          subst hr
          rfl
        all_goals
          obtain ⟨x, -, hxr⟩ := hr
          subst hxr
          rfl

/-- Monotonicity of the seen set along a child list, given it for single
values at the same fuel. -/
theorem traverseList_mono_of {n : Nat} (h : Heap n) (fuel : Nat)
    (hP : ∀ (v : JVal n) (seen : Finset (Fin n)) r,
      traverse h fuel v seen = some r → seen ⊆ r.2) :
    ∀ (vs : List (JVal n)) (seen s : Finset (Fin n)),
      traverseList h fuel vs seen = some s → seen ⊆ s := by
  intro vs
  induction vs with
  | nil =>
    intro seen s hs
    simp [traverseList] at hs
    simp [← hs]
  | cons v rest ih =>
    intro seen s hs
    rw [traverseList] at hs
    cases hv : traverse h fuel v seen with
    | none => rw [hv] at hs; cases hs
    | some r =>
      rw [hv] at hs
      exact (hP v seen r hv).trans (ih r.2 s hs)

/-- The threaded seen set only grows: `traverse(v, seen)` returns a superset
of `seen`. -/
theorem traverse_mono {n : Nat} (h : Heap n) :
    ∀ (fuel : Nat) (v : JVal n) (seen : Finset (Fin n)) r,
      traverse h fuel v seen = some r → seen ⊆ r.2 := by
  intro fuel
  induction fuel with
  | zero =>
    intro v seen r hr
    cases v with
    | prim => simp [traverse] at hr; subst hr; exact Finset.Subset.refl seen
    | obj a => simp [traverse] at hr
  | succ fuel ih =>
    intro v seen r hr
    cases v with
    | prim => simp [traverse] at hr; subst hr; exact Finset.Subset.refl seen
    | obj a =>
      rw [traverse] at hr
      split at hr
      · simp at hr
        subst hr
        exact Finset.Subset.refl seen
      · have hsub : seen ⊆ insert a seen := Finset.subset_insert a seen
        cases hk : h.kind a <;> simp [hk] at hr
        case refNode =>
          obtain ⟨x, b, hx, hxr⟩ := hr
          subst hxr
          exact hsub.trans (ih _ _ (x, b) hx)
        case otherNode =>
          subst hr
          exact hsub
        all_goals
          obtain ⟨x, hx, hxr⟩ := hr
          subst hxr
          exact hsub.trans (traverseList_mono_of h fuel ih _ _ x hx)

/-- Totality along a child list, given totality for single values at the
same fuel. -/
theorem traverseList_total_of {n : Nat} (h : Heap n) (fuel : Nat)
    (hP : ∀ (v : JVal n) (seen : Finset (Fin n)),
      n < seen.card + fuel → (traverse h fuel v seen).isSome = true) :
    ∀ (vs : List (JVal n)) (seen : Finset (Fin n)),
      n < seen.card + fuel → (traverseList h fuel vs seen).isSome = true := by
  intro vs
  induction vs with
  | nil => intro seen _; simp [traverseList]
  | cons v rest ih =>
    intro seen hlt
    have h1 := hP v seen hlt
    cases hv : traverse h fuel v seen with
    | none => rw [hv] at h1; cases h1
    | some r =>
      have hsub := traverse_mono h fuel v seen r hv
      have hcard : seen.card ≤ r.2.card := Finset.card_le_card hsub
      have hlt2 : n < r.2.card + fuel := by omega
      rw [traverseList, hv]
      exact ih r.2 hlt2

/-- With fuel exceeding the number of yet-unvisited heap nodes, `traverse`
never runs out: the source recursion terminates. -/
theorem traverse_total {n : Nat} (h : Heap n) :
    ∀ (fuel : Nat) (v : JVal n) (seen : Finset (Fin n)),
      n < seen.card + fuel → (traverse h fuel v seen).isSome = true := by
  intro fuel
  induction fuel with
  | zero =>
    intro v seen hlt
    exfalso
    have hle : seen.card ≤ n := by
      have := Finset.card_le_univ seen
      simpa using this
    omega
  | succ fuel ih =>
    intro v seen hlt
    cases v with
    | prim => simp [traverse]
    | obj a =>
      rw [traverse]
      split
      · simp
      · rename_i hmem
        have hna : a ∉ seen := fun hmm => hmem (Or.inl hmm)
        have hc1 : (insert a seen).card = seen.card + 1 :=
          Finset.card_insert_of_not_mem hna
        have hlt1 : n < (insert a seen).card + fuel := by omega
        have hL := traverseList_total_of h fuel (fun v s hlt => ih v s hlt)
        cases h.kind a <;> simp
        case refNode => exact ih _ _ hlt1
        all_goals exact hL _ _ hlt1

/-! ## Claim theorems -/

/-- Claim C1: when the per-host fallback flush fires, the executed trace is
exactly the pre-queue followed by the post-queue — so every pre job runs
before any post job and each queue runs in FIFO enqueue order — and both
queues are left empty (length 0) afterwards. -/
theorem fallback_flush_pre_before_post_fifo (vm : VMState) :
    (fallbackFlushBody vm).1 = vm.preQueue ++ vm.postQueue ∧
    (fallbackFlushBody vm).2.preQueue = [] ∧
    (fallbackFlushBody vm).2.postQueue = [] := by
  simp [fallbackFlushBody_spec]

/-- Claim C2: for a multi-source watch without `deep`, `applyCb` skips the
user callback exactly when every slot is unchanged under the equality
check, and otherwise invokes it with the full current and previous
arrays, even when only one slot changed. -/
theorem multiSource_full_arrays_or_skip {α : Type} (same : α → α → Bool)
    (n o : List α) :
    (allSlotsSame same n o = true → applyCb same false true n o = none) ∧
    (allSlotsSame same n o = false →
      applyCb same false true n o = some (n, o)) := by
  constructor <;> intro hs <;> simp [applyCb, hs]

/-- Witness for claim C2: with beq on naturals, `[1, 2]` versus previous
`[1, 3]` delivers the full arrays, and `[1, 2]` versus `[1, 2]` is
skipped. -/
theorem multiSource_full_arrays_or_skip_witness :
    applyCb (fun a b => a == b) false true [1, 2] [1, 3]
        = some ([1, 2], [1, 3]) ∧
    applyCb (fun a b => a == b) false true ([1, 2] : List Nat) [1, 2]
        = none := by
  constructor
  · exact (multiSource_full_arrays_or_skip (fun a b => a == b)
      [1, 2] [1, 3]).2 (by decide)
  · exact (multiSource_full_arrays_or_skip (fun a b => a == b)
      [1, 2] [1, 2]).1 (by decide)

/-- Claim C3: an `immediate: true` watch produces exactly one direct
synchronous `applyCb` run at registration — with the initial value as the
new value and `undefined` as the old value, or `[]` as the old value when
the new value is an array — and every subsequent delivery goes to the
original scheduler-wrapped callback. -/
theorem immediate_watch_single_sync_call (v0 : WVal)
    (updates : List (WVal × WVal)) :
    runImmediateWatch v0 updates =
      CbAction.immediateRun v0 (if v0.isArr then WVal.arr [] else WVal.undef)
        :: updates.map (fun p => CbAction.originalRun p.1 p.2) := by
  simp [runImmediateWatch, deliverAll, shiftCallbackStep, deliverAll_shifted]

/-- Claim C4: stopping a scope twice runs its cleanups exactly once (the
second `stop()` is a no-op on the already-stopped tree), an active scope
stops its children before running its own cleanups in registration order,
and `run(fn)` on a stopped scope returns `undefined` without invoking
`fn` (the state is untouched). -/
theorem effectScope_stop_idempotent_run_inactive {σ α : Type}
    (s : ScopeTree) (children : List ScopeTree) (cleanups : List Nat)
    (fn : σ → σ × α) (st : σ) :
    stopScope (stopScope s).1 = ((stopScope s).1, []) ∧
    stopScope (ScopeTree.node true children cleanups) =
      (ScopeTree.node false (stopChildren children).1 cleanups,
        (stopChildren children).2 ++ cleanups) ∧
    runScope (ScopeTree.node false children cleanups) fn st = (st, none) := by
  refine ⟨stopScope_inactive _ (stopScope_fst_inactive s), ?_, ?_⟩
  · simp [stopScope]
  · simp [runScope, ScopeTree.isActive]

/-- Claim C5: writing to a computed cell created without a setter warns (in
a development build) and drops the write — the observable state is
unchanged in every build — while a supplied setter receives the written
value. -/
theorem computed_readonly_setter {α σ : Type} (v : α)
    (cell : ComputedCellState σ) :
    computedSetter true (none : Option (α → σ → σ)) v cell
        = { cell with warnings := cell.warnings + 1 } ∧
    (∀ dev : Bool,
      (computedSetter dev (none : Option (α → σ → σ)) v cell).state
        = cell.state) ∧
    (∀ f : α → σ → σ,
      computedSetter true (some f) v cell
        = { cell with state := f v cell.state }) := by
  refine ⟨rfl, ?_, fun f => rfl⟩
  intro dev
  cases dev <;> rfl

/-- Claim C6: a trigger of an effect getter that arrives while the guard is
held is silently dropped — the state is untouched, nothing is queued and
nothing is raised, whatever the body — and when the guard is free the body
runs once and the guard is released afterwards even when the body raises
(the raised exception propagating out). -/
theorem effect_reentrancy_dropped {σ ε : Type} (body : σ → σ × Option ε)
    (st : σ) :
    effectGetter body true st = (true, st, none) ∧
    effectGetter body false st = (false, (body st).1, (body st).2) :=
  ⟨rfl, rfl⟩

/-- Counterexample to claim C7: enqueueing two jobs on the same host within
the same tick registers the fallback with the deferred-callback primitive
twice, not at most once. -/
theorem fallback_schedule_duplicated :
    ¬ ((queueFlushJob (queueFlushJob ⟨[], [], 0⟩ 1 .pre) 2 .pre).scheduledFallbacks
        ≤ 1) := by
  decide

/-- Claim C7 as amended: every enqueue registers its own fallback callback
with the deferred-callback primitive (two enqueues in one tick yield two
registrations), but any fallback firing after the first in a tick is a
no-op — it executes no job and leaves the host state unchanged — so the
queues are effectively flushed at most once per tick. -/
theorem fallback_duplicates_are_noops (vm : VMState) :
    (queueFlushJob (queueFlushJob ⟨[], [], 0⟩ 1 .pre) 2 .pre).scheduledFallbacks
        = 2 ∧
    fallbackFlushBody (fallbackFlushBody vm).2 = ([], (fallbackFlushBody vm).2) := by
  refine ⟨by decide, ?_⟩
  simp [fallbackFlushBody_spec]

/-- Claim C8: the deep-watch traversal terminates on every heap — fuel one
more than the heap size always suffices, cyclic and shared graphs
included — and on the self-referential object `o.self === o` it returns
after visiting just that node. -/
theorem traverse_terminates_on_cycles :
    (∀ (n : Nat) (h : Heap n) (v : JVal n),
      (traverse h (n + 1) v ∅).isSome = true) ∧
    traverse cyclicHeap 2 (.obj 0) ∅ = some (.obj 0, {0}) := by
  constructor
  · intro n h v
    exact traverse_total h (n + 1) v ∅ (by simp)
  · simp [traverse, traverseList, cyclicHeap]

/-- Claim C9: whenever `traverse` returns, it returns exactly the value it
was given, and consequently the deep getter `() => traverse(baseGetter())`
observes the same value as the base getter. -/
theorem traverse_value_identity {n : Nat} (h : Heap n) (g : Unit → JVal n)
    (fuel : Nat) (v : JVal n) (seen : Finset (Fin n)) :
    ((traverse h fuel v seen).map Prod.fst = none ∨
      (traverse h fuel v seen).map Prod.fst = some v) ∧
    deepGetter h g = some (g ()) := by
  constructor
  · cases hv : traverse h fuel v seen with
    | none => left; simp
    | some r => right; simp [traverse_fst h fuel v seen r hv]
  · have ht := traverse_total h (n + 1) (g ()) ∅ (by simp)
    obtain ⟨r, hr⟩ := Option.isSome_iff_exists.mp ht
    have hfst := traverse_fst h (n + 1) (g ()) ∅ r hr
    simp [deepGetter, hr, hfst]

/-- Claim C10: no value is both raw and reactive — the two predicates read
the same `__ob__` marker and disagree on its `__raw__` flag — and after
`markRaw` on an extensible plain object or array the object is raw and
not reactive. -/
theorem raw_reactive_exclusive :
    (∀ v : JsRef, ¬ (isRaw v = true ∧ isReactive v = true)) ∧
    (∀ o : JsObjShape, o.plainOrArray = true → o.extensible = true →
      isRaw (markRaw o) = true ∧ isReactive (markRaw o) = false) := by
  constructor
  · rintro (_ | ⟨pa, ex, hob, obo, obr⟩) ⟨h1, h2⟩
    · simp [isRaw] at h1
    · cases obr <;> simp [isRaw, isReactive] at h1 h2
  · intro o h1 h2
    simp [markRaw, isRaw, isReactive, h1, h2]

/-- Witness for claim C10: a fresh extensible plain object is raw and not
reactive after `markRaw`. -/
theorem raw_reactive_exclusive_witness :
    isRaw (markRaw ⟨true, true, false, false, false⟩) = true ∧
    isReactive (markRaw ⟨true, true, false, false, false⟩) = false :=
  raw_reactive_exclusive.2 ⟨true, true, false, false, false⟩ rfl rfl

end VCA
